import Mathlib

/-!
Verification of the Monte Carlo asset-pricing estimator of
`asset_pricing_simulation.ipynb`: the functions `simulate_forward_sum_ave`
(per-state Monte Carlo average of the forward-sum path statistic) and
`compute_prices_across_states` (the grid driver).

Modelling conventions.  Floating-point numbers are idealised as exact
rationals.  The NumPy global random generator is modelled by an abstract
noise family `ω : ℕ → ℕ → ℚ`, where `ω s k` is the k-th standard-normal
variate produced by the stream obtained from `np.random.seed s`; the state
of the global generator is the pair (last seed, number of variates drawn
since).  `np.exp` is modelled by an abstract function `E : ℚ → ℚ`.  All
theorems are universally quantified over `E` and `ω`, so they hold for the
concrete exponential and for any realisation of the generator.
-/

namespace AssetPricing

/-- The model parameters of `simulate_forward_sum_ave`, in the order of its
keyword arguments: discount factor β, risk aversion γ, state persistence ρ,
state volatility σ, dividend drift/volatility μ_d, σ_d, consumption
drift/volatility μ_c, σ_c, path length N and path count M. -/
structure Params where
  β : ℚ
  γ : ℚ
  ρ : ℚ
  σ : ℚ
  μ_d : ℚ
  σ_d : ℚ
  μ_c : ℚ
  σ_c : ℚ
  N : ℕ
  M : ℕ
  deriving DecidableEq

/-- The built-in default arguments of `simulate_forward_sum_ave`:
β=0.96, γ=2.0, ρ=0.9, σ=0.05, μ_d=0.01, σ_d=0.01, μ_c=0.05, σ_c=0.01,
N=1000, M=20000. -/
def default_params : Params :=
  ⟨96/100, 2, 9/10, 1/20, 1/100, 1/100, 1/20, 1/100, 1000, 20000⟩

/-- The state of the globally shared NumPy random generator: the seed it was
last reset to, and how many standard-normal variates have been drawn from it
since that reset. -/
structure GlobalRNG where
  seed : ℕ
  pos : ℕ
  deriving DecidableEq

section Model

variable (E : ℚ → ℚ) (ω : ℕ → ℕ → ℚ)

/-- `np.random.seed m`: reset the global generator to the stream of seed m. -/
def npSeed (m : ℕ) : GlobalRNG := ⟨m, 0⟩

/-- `randn()`: draw the next standard-normal variate from the global stream
and advance the generator. -/
def randn (g : GlobalRNG) : ℚ × GlobalRNG :=
  (ω g.seed g.pos, ⟨g.seed, g.pos + 1⟩)

/-- The inner `for t in range(N)` loop of `simulate_forward_sum_ave`: with
`n` iterations remaining and current state `x`, draw η_c and η_d, record
`A_path[t] = β * exp(t1 + t2)` with
`t1 = -γ*μ_c + μ_d + (1-γ)*x` and `t2 = -γ*σ_c*η_c + σ_d*η_d`,
then draw ξ and update `x = ρ*x + σ*ξ`.  Returns the list `A_path` and the
final global-generator state. -/
def genPathAux (p : Params) : ℕ → ℚ → GlobalRNG → List ℚ × GlobalRNG
  | 0, _, g => ([], g)
  | n + 1, x, g =>
    let r1 := randn ω g
    let η_c := r1.1
    let r2 := randn ω r1.2
    let η_d := r2.1
    let t1 := -p.γ * p.μ_c + p.μ_d + (1 - p.γ) * x
    let t2 := -p.γ * p.σ_c * η_c + p.σ_d * η_d
    let A := p.β * E (t1 + t2)
    let r3 := randn ω r2.2
    let x' := p.ρ * x + p.σ * r3.1
    let rest := genPathAux p n x' r3.2
    (A :: rest.1, rest.2)

/-- The second inner loop of `simulate_forward_sum_ave`: running product
`A_prod` (accumulator argument) and forward sum `Λ`:
for each A, `A_prod *= A; Λ += A_prod`. -/
def forwardSum : List ℚ → ℚ → ℚ
  | [], _ => 0
  | A :: As, P => P * A + forwardSum As (P * A)

/-- The forward value of one path: the second inner loop started with
`A_prod = 1.0` and `Λ = 0.0`. -/
def pathSum (As : List ℚ) : ℚ := forwardSum As 1

/-- The body of one iteration of the `for m in range(M)` loop:
`np.random.seed(m)` (discarding the incoming global-generator state `_g`),
generate the path from `x0`, and return this path's forward value `Λ`
together with the global-generator state left behind. -/
def pathBody (p : Params) (x0 : ℚ) (m : ℕ) (_g : GlobalRNG) : ℚ × GlobalRNG :=
  let res := genPathAux E ω p p.N x0 (npSeed m)
  (pathSum res.1, res.2)

/-- The path statistic `Λ` of the path with seed `m` — the value component
of `pathBody`, which is independent of the incoming generator state. -/
def pathValue (p : Params) (x0 : ℚ) (m : ℕ) : ℚ :=
  pathSum (genPathAux E ω p p.N x0 (npSeed m)).1

/-- The `for m in range(M)` loop of `simulate_forward_sum_ave`: run `k`
remaining iterations with seeds `m0, m0+1, ...`, collecting the entries of
`Λ_vals` in order and threading the global-generator state. -/
def simLoop (p : Params) (x0 : ℚ) : ℕ → ℕ → GlobalRNG → List ℚ × GlobalRNG
  | _, 0, g => ([], g)
  | m0, k + 1, g =>
    let b := pathBody E ω p x0 m0 g
    let rest := simLoop p x0 (m0 + 1) k b.2
    (b.1 :: rest.1, rest.2)

/-- `simulate_forward_sum_ave`: run the M-path loop with seeds 0..M-1 and
return `Λ_vals.mean()`, i.e. the sum of the M path statistics divided by M,
together with the global-generator state after the call. -/
def simulate_forward_sum_ave (p : Params) (x0 : ℚ) (g : GlobalRNG) : ℚ × GlobalRNG :=
  let res := simLoop E ω p x0 0 p.M g
  (res.1.sum / (p.M : ℚ), res.2)

/-- `compute_prices_across_states`: for each grid value, in grid order, call
`simulate_forward_sum_ave` with the built-in default parameters and write the
result to the slot of that grid index. -/
def compute_prices_across_states : List ℚ → GlobalRNG → List ℚ × GlobalRNG
  | [], g => ([], g)
  | x :: xs, g =>
    let v := simulate_forward_sum_ave E ω default_params x g
    let rest := compute_prices_across_states xs v.2
    (v.1 :: rest.1, rest.2)

/-- The latent-state sequence produced by the inner loop when it starts at
state `x` with the generator at position `k` of stream `m`: each step
consumes the third variate of its triple, `x_{j+1} = ρ·x_j + σ·ω m (k+3j+2)`. -/
def xAux (p : Params) (m k : ℕ) (x : ℚ) : ℕ → ℚ
  | 0 => x
  | j + 1 => p.ρ * xAux p m k x j + p.σ * ω m (k + 3 * j + 2)

/-- The j-th entry of `A_path` when the inner loop starts at state `x` with
the generator at position `k` of stream `m`. -/
def srcA (p : Params) (m k : ℕ) (x : ℚ) (j : ℕ) : ℚ :=
  p.β * E (-p.γ * p.μ_c + p.μ_d + (1 - p.γ) * xAux ω p m k x j
    + (-p.γ * p.σ_c * ω m (k + 3 * j) + p.σ_d * ω m (k + 3 * j + 1)))

lemma xAux_shift (p : Params) (m k : ℕ) (x : ℚ) :
    ∀ j, xAux ω p m (k + 3) (p.ρ * x + p.σ * ω m (k + 2)) j = xAux ω p m k x (j + 1) := by
  intro j
  induction j with
  | zero =>
    show p.ρ * x + p.σ * ω m (k + 2) = p.ρ * xAux ω p m k x 0 + p.σ * ω m (k + 3 * 0 + 2)
    norm_num [xAux]
  | succ j ih =>
    show p.ρ * xAux ω p m (k + 3) (p.ρ * x + p.σ * ω m (k + 2)) j
          + p.σ * ω m (k + 3 + 3 * j + 2)
        = p.ρ * xAux ω p m k x (j + 1) + p.σ * ω m (k + 3 * (j + 1) + 2)
    rw [ih, show k + 3 + 3 * j + 2 = k + 3 * (j + 1) + 2 by ring]

lemma srcA_shift (p : Params) (m k : ℕ) (x : ℚ) (j : ℕ) :
    srcA E ω p m (k + 3) (p.ρ * x + p.σ * ω m (k + 2)) j = srcA E ω p m k x (j + 1) := by
  unfold srcA
  rw [xAux_shift, show k + 3 + 3 * j = k + 3 * (j + 1) by ring,
    show k + 3 * (j + 1) + 1 = k + 3 * (j + 1) + 1 by ring]

/-- Characterization of the inner t-loop: starting at state `x` with the
generator at position `k` of stream `m`, it produces exactly the `A_path`
entries `srcA` and advances the generator by 3 variates per iteration. -/
lemma genPathAux_eq (p : Params) (n : ℕ) :
    ∀ (x : ℚ) (m k : ℕ),
      genPathAux E ω p n x ⟨m, k⟩
        = ((List.range n).map (srcA E ω p m k x), ⟨m, k + 3 * n⟩) := by
  induction n with
  | zero => intro x m k; simp [genPathAux]
  | succ n ih =>
    intro x m k
    simp only [genPathAux, randn]
    rw [ih]
    simp only [List.range_succ_eq_map, List.map_cons, List.map_map]
    refine Prod.ext ?_ ?_
    · refine congrArg₂ List.cons ?_ ?_
      · show p.β * E (-p.γ * p.μ_c + p.μ_d + (1 - p.γ) * x
            + (-p.γ * p.σ_c * ω m k + p.σ_d * ω m (k + 1))) = srcA E ω p m k x 0
        simp [srcA, xAux]
      · refine List.map_congr_left (fun j _ => ?_)
        exact srcA_shift E ω p m k x j
    · show (⟨m, k + 1 + 1 + 1 + 3 * n⟩ : GlobalRNG) = ⟨m, k + 3 * (n + 1)⟩
      rw [show k + 1 + 1 + 1 + 3 * n = k + 3 * (n + 1) by ring]

/-- The running-product forward sum over `(range N).map A` equals the double
sum of scaled cumulative products. -/
lemma forwardSum_range (N : ℕ) :
    ∀ (A : ℕ → ℚ) (P : ℚ),
      forwardSum ((List.range N).map A) P
        = ∑ n ∈ Finset.range N, P * ∏ i ∈ Finset.range (n + 1), A i := by
  induction N with
  | zero => intro A P; simp [forwardSum]
  | succ N ih =>
    intro A P
    rw [List.range_succ_eq_map, List.map_cons, List.map_map]
    show P * A 0 + forwardSum (List.map (A ∘ Nat.succ) (List.range N)) (P * A 0) = _
    have hrest : List.map (A ∘ Nat.succ) (List.range N)
        = (List.range N).map (fun j => A (j + 1)) := rfl
    rw [hrest, ih (fun j => A (j + 1)) (P * A 0), Finset.sum_range_succ']
    have key : ∀ n, P * ∏ i ∈ Finset.range (n + 1 + 1), A i
        = P * A 0 * ∏ i ∈ Finset.range (n + 1), A (i + 1) := by
      intro n
      rw [Finset.prod_range_succ' A (n + 1)]
      ring
    rw [Finset.sum_congr rfl (fun n _ => key n)]
    simp only [Nat.zero_add, Finset.prod_range_one]
    ring

/-- The path statistic of seed `m` as a double sum of cumulative products of
the `A_path` entries. -/
lemma pathValue_eq (p : Params) (x0 : ℚ) (m : ℕ) :
    pathValue E ω p x0 m
      = ∑ n ∈ Finset.range p.N, ∏ i ∈ Finset.range (n + 1), srcA E ω p m 0 x0 i := by
  unfold pathValue npSeed pathSum
  rw [genPathAux_eq, forwardSum_range]
  simp

/-- The value list produced by the m-loop: the path statistics of seeds
`m0, m0+1, ..., m0+k-1`, in order, independent of the incoming generator
state. -/
lemma simLoop_fst (p : Params) (x0 : ℚ) (k : ℕ) :
    ∀ (m0 : ℕ) (g : GlobalRNG),
      (simLoop E ω p x0 m0 k g).1
        = (List.range k).map (fun j => pathValue E ω p x0 (m0 + j)) := by
  induction k with
  | zero => intro m0 g; simp [simLoop]
  | succ k ih =>
    intro m0 g
    simp only [simLoop, pathBody]
    rw [ih]
    simp only [List.range_succ_eq_map, List.map_cons, List.map_map]
    refine congrArg₂ List.cons ?_ ?_
    · show pathValue E ω p x0 m0 = pathValue E ω p x0 (m0 + 0)
      rw [Nat.add_zero]
    · refine List.map_congr_left (fun j _ => ?_)
      show pathValue E ω p x0 (m0 + 1 + j) = pathValue E ω p x0 (m0 + (j + 1))
      rw [show m0 + 1 + j = m0 + (j + 1) by omega]

/-- The generator state left behind by a non-empty m-loop: the last iteration
reseeded with its seed and drew 3N variates. -/
lemma simLoop_snd (p : Params) (x0 : ℚ) (k : ℕ) :
    ∀ (m0 : ℕ) (g : GlobalRNG), 1 ≤ k →
      (simLoop E ω p x0 m0 k g).2 = ⟨m0 + k - 1, 3 * p.N⟩ := by
  induction k with
  | zero => intro m0 g h; omega
  | succ k ih =>
    intro m0 g _
    simp only [simLoop, pathBody, npSeed]
    rcases Nat.eq_zero_or_pos k with hk | hk
    · subst hk
      simp only [simLoop]
      rw [genPathAux_eq]
      show (⟨m0, 0 + 3 * p.N⟩ : GlobalRNG) = ⟨m0 + 1 - 1, 3 * p.N⟩
      rw [Nat.zero_add, Nat.add_sub_cancel]
    · rw [ih (m0 + 1) _ hk]
      rw [show m0 + 1 + k - 1 = m0 + (k + 1) - 1 by omega]

/-- The value returned by `simulate_forward_sum_ave`: the mean over seeds
0..M-1 of the path statistics, independent of the incoming generator state. -/
lemma simulate_fst (p : Params) (x0 : ℚ) (g : GlobalRNG) :
    (simulate_forward_sum_ave E ω p x0 g).1
      = ((List.range p.M).map (fun m => pathValue E ω p x0 m)).sum / (p.M : ℚ) := by
  show (simLoop E ω p x0 0 p.M g).1.sum / (p.M : ℚ) = _
  rw [simLoop_fst]
  simp only [Nat.zero_add]

/-- The Monte Carlo estimate at one grid point, with the default parameters:
mean of the path statistics of seeds 0..M-1. -/
def meanValue (x0 : ℚ) : ℚ :=
  ((List.range default_params.M).map
    (fun m => pathValue E ω default_params x0 m)).sum / (default_params.M : ℚ)

/-- The value list produced by the grid driver: the per-point Monte Carlo
estimate applied pointwise to the grid, independent of the incoming
generator state. -/
lemma compute_fst (xs : List ℚ) :
    ∀ g : GlobalRNG,
      (compute_prices_across_states E ω xs g).1 = xs.map (meanValue E ω) := by
  induction xs with
  | nil => intro g; simp [compute_prices_across_states]
  | cons x xs ih =>
    intro g
    show (simulate_forward_sum_ave E ω default_params x g).1
          :: (compute_prices_across_states E ω xs
                (simulate_forward_sum_ave E ω default_params x g).2).1
        = meanValue E ω x :: List.map (meanValue E ω) xs
    rw [ih, simulate_fst]
    rfl

lemma compute_length (xs : List ℚ) (g : GlobalRNG) :
    ((compute_prices_across_states E ω xs g).1).length = xs.length := by
  rw [compute_fst]
  exact List.length_map xs _

/-- Modelled from the spec's words, for the refinement claim: the latent
AR(1) state trajectory, `x_0 = x0` and `x_t = ρ·x_{t-1} + σ·ξ_t`, where
`ξ_t` is the third standard-normal variate of iteration t of the private
stream seeded with `m`. -/
def spec_x (p : Params) (m : ℕ) (x0 : ℚ) : ℕ → ℚ
  | 0 => x0
  | t + 1 => p.ρ * spec_x p m x0 t + p.σ * ω m (3 * t + 2)

/-- Modelled from the spec's words: the pricing-kernel-times-growth factor
`A_{t+1} = β · exp(-γ·μ_c + μ_d + (1-γ)·x_t - γ·σ_c·η_c + σ_d·η_d)`,
computed from the state carried over from the previous iteration, with
`η_c`, `η_d` the first two variates of iteration t+1. -/
def spec_A (p : Params) (m : ℕ) (x0 : ℚ) (t : ℕ) : ℚ :=
  p.β * E (-p.γ * p.μ_c + p.μ_d + (1 - p.γ) * spec_x ω p m x0 t
    - p.γ * p.σ_c * ω m (3 * t) + p.σ_d * ω m (3 * t + 1))

/-- Modelled from the spec's words: the path statistic
`Λ = Σ_{n=1}^N Π_{i=1}^n A_i` (here 0-indexed: `spec_A … i` is `A_{i+1}`). -/
def spec_Lambda (p : Params) (m : ℕ) (x0 : ℚ) : ℚ :=
  ∑ n ∈ Finset.range p.N, ∏ i ∈ Finset.range (n + 1), spec_A E ω p m x0 i

lemma xAux_eq_spec_x (p : Params) (m : ℕ) (x0 : ℚ) :
    ∀ j, xAux ω p m 0 x0 j = spec_x ω p m x0 j := by
  intro j
  induction j with
  | zero => rfl
  | succ j ih =>
    show p.ρ * xAux ω p m 0 x0 j + p.σ * ω m (0 + 3 * j + 2)
        = p.ρ * spec_x ω p m x0 j + p.σ * ω m (3 * j + 2)
    rw [ih, Nat.zero_add]

lemma srcA_eq_spec_A (p : Params) (m : ℕ) (x0 : ℚ) (i : ℕ) :
    srcA E ω p m 0 x0 i = spec_A E ω p m x0 i := by
  unfold srcA spec_A
  rw [xAux_eq_spec_x]
  simp only [Nat.zero_add]
  ring_nf

/-- Modelled from the spec's words, for the degenerate-shock boundary: the
deterministic state path `x_t = ρ·x_{t-1}`. -/
def det_x (p : Params) (x0 : ℚ) : ℕ → ℚ
  | 0 => x0
  | t + 1 => p.ρ * det_x p x0 t

/-- Modelled from the spec's words: the closed-form value
`Σ_{n=1}^N Π_{t=1}^n β·exp(-γ·μ_c + μ_d + (1-γ)·x_{t-1})` along the
deterministic state path. -/
def closed_form (p : Params) (x0 : ℚ) : ℚ :=
  ∑ n ∈ Finset.range p.N, ∏ i ∈ Finset.range (n + 1),
    p.β * E (-p.γ * p.μ_c + p.μ_d + (1 - p.γ) * det_x p x0 i)

lemma getD_map_of_lt (f : ℚ → ℚ) (xs : List ℚ) :
    ∀ i : ℕ, i < xs.length → ∀ d d' : ℚ, (xs.map f).getD i d = f (xs.getD i d') := by
  induction xs with
  | nil => intro i h; simp at h
  | cons x xs ih =>
    intro i h d d'
    cases i with
    | zero => rfl
    | succ i => exact ih i (by simpa using h) d d'

/-- Extended floating-point carrier for the overflow claim: an exact finite
value, a signed infinity, or a not-a-number value.  Finite arithmetic is
kept exact (rounding and finite-range overflow are abstracted away, as the
claim concerns overflow inside `exp`); the IEEE-754 special-value rules
govern every operation that meets an infinity or a NaN. -/
inductive FP where
  | fin : ℚ → FP
  | posInf : FP
  | negInf : FP
  | nan : FP
  deriving DecidableEq

/-- Finiteness test on the extended carrier: true exactly on finite values. -/
def FP.isFin : FP → Bool
  | fin _ => true
  | _ => false

/-- IEEE-style addition on the extended carrier: NaN propagates, opposite
infinities give NaN, an infinity absorbs finite addends, finite plus finite
is exact. -/
def FP.add : FP → FP → FP
  | nan, _ => nan
  | _, nan => nan
  | posInf, negInf => nan
  | negInf, posInf => nan
  | posInf, _ => posInf
  | _, posInf => posInf
  | negInf, _ => negInf
  | _, negInf => negInf
  | fin a, fin b => fin (a + b)

/-- IEEE-style multiplication on the extended carrier: NaN propagates,
infinity times zero is NaN, infinity times a nonzero value follows the sign
rule, finite times finite is exact. -/
def FP.mul : FP → FP → FP
  | nan, _ => nan
  | _, nan => nan
  | posInf, posInf => posInf
  | posInf, negInf => negInf
  | negInf, posInf => negInf
  | negInf, negInf => posInf
  | posInf, fin b => if 0 < b then posInf else if b < 0 then negInf else nan
  | fin a, posInf => if 0 < a then posInf else if a < 0 then negInf else nan
  | negInf, fin b => if 0 < b then negInf else if b < 0 then posInf else nan
  | fin a, negInf => if 0 < a then negInf else if a < 0 then posInf else nan
  | fin a, fin b => fin (a * b)

/-- IEEE-style division on the extended carrier (used here only with a
finite divisor, the path count M): NaN propagates, infinity over infinity
is NaN, infinity over a finite value follows the sign rule, a finite value
over an infinity is 0, and a finite value over zero is a signed infinity
(NaN for 0/0). -/
def FP.div : FP → FP → FP
  | nan, _ => nan
  | _, nan => nan
  | posInf, posInf => nan
  | posInf, negInf => nan
  | negInf, posInf => nan
  | negInf, negInf => nan
  | posInf, fin b => if b < 0 then negInf else posInf
  | negInf, fin b => if b < 0 then posInf else negInf
  | fin _, posInf => fin 0
  | fin _, negInf => fin 0
  | fin a, fin b =>
    if b = 0 then (if a = 0 then nan else if 0 < a then posInf else negInf)
    else fin (a / b)

lemma FP.isFin_add (x y : FP) : (FP.add x y).isFin = (x.isFin && y.isFin) := by
  cases x <;> cases y <;> rfl

lemma FP.isFin_mul (x y : FP) : (FP.mul x y).isFin = (x.isFin && y.isFin) := by
  cases x <;> cases y <;>
    first
      | rfl
      | (show FP.isFin (if _ then _ else if _ then _ else _) = _
         split_ifs <;> rfl)

lemma FP.div_nonfin (x y : FP) (h : x.isFin = false) : (FP.div x y).isFin = false := by
  cases x with
  | fin a => simp [FP.isFin] at h
  | posInf =>
    cases y <;>
      first
        | rfl
        | (show FP.isFin (if _ then _ else _) = false
           split_ifs <;> rfl)
  | negInf =>
    cases y <;>
      first
        | rfl
        | (show FP.isFin (if _ then _ else _) = false
           split_ifs <;> rfl)
  | nan => cases y <;> rfl

variable (EFP : ℚ → FP)

/-- The exp argument `t1 + t2` at entry j of the inner loop started at state
`x` with the generator at position `k` of stream `m` (always a finite
number: the claim places the overflow inside `exp` itself). -/
def srcArg (p : Params) (m k : ℕ) (x : ℚ) (j : ℕ) : ℚ :=
  -p.γ * p.μ_c + p.μ_d + (1 - p.γ) * xAux ω p m k x j
    + (-p.γ * p.σ_c * ω m (k + 3 * j) + p.σ_d * ω m (k + 3 * j + 1))

lemma srcArg_shift (p : Params) (m k : ℕ) (x : ℚ) (j : ℕ) :
    srcArg ω p m (k + 3) (p.ρ * x + p.σ * ω m (k + 2)) j = srcArg ω p m k x (j + 1) := by
  unfold srcArg
  rw [xAux_shift, show k + 3 + 3 * j = k + 3 * (j + 1) by ring]

/-- The inner t-loop of `simulate_forward_sum_ave` over the extended
carrier: identical to `genPathAux`, with `np.exp` modelled by
`EFP : ℚ → FP`, so that each `A_path` entry `β * exp(t1 + t2)` may be an
infinity or NaN; the state recursion and the generator threading are
unchanged (`randn` draws are finite). -/
def genPathAuxFP (p : Params) : ℕ → ℚ → GlobalRNG → List FP × GlobalRNG
  | 0, _, g => ([], g)
  | n + 1, x, g =>
    let r1 := randn ω g
    let η_c := r1.1
    let r2 := randn ω r1.2
    let η_d := r2.1
    let t1 := -p.γ * p.μ_c + p.μ_d + (1 - p.γ) * x
    let t2 := -p.γ * p.σ_c * η_c + p.σ_d * η_d
    let A := FP.mul (FP.fin p.β) (EFP (t1 + t2))
    let r3 := randn ω r2.2
    let x' := p.ρ * x + p.σ * r3.1
    let rest := genPathAuxFP p n x' r3.2
    (A :: rest.1, rest.2)

/-- The second inner loop over the extended carrier: `A_prod *= A;
Λ += A_prod` with IEEE-style special values. -/
def forwardSumFP : List FP → FP → FP
  | [], _ => FP.fin 0
  | A :: As, P => FP.add (FP.mul P A) (forwardSumFP As (FP.mul P A))

/-- The forward value of one path over the extended carrier. -/
def pathSumFP (As : List FP) : FP := forwardSumFP As (FP.fin 1)

/-- The path statistic of seed `m` over the extended carrier. -/
def pathValueFP (p : Params) (x0 : ℚ) (m : ℕ) : FP :=
  pathSumFP (genPathAuxFP ω EFP p p.N x0 (npSeed m)).1

/-- The m-loop of `simulate_forward_sum_ave` over the extended carrier. -/
def simLoopFP (p : Params) (x0 : ℚ) : ℕ → ℕ → GlobalRNG → List FP × GlobalRNG
  | _, 0, g => ([], g)
  | m0, k + 1, _g =>
    let b := genPathAuxFP ω EFP p p.N x0 (npSeed m0)
    let rest := simLoopFP p x0 (m0 + 1) k b.2
    (pathSumFP b.1 :: rest.1, rest.2)

/-- `Λ_vals.sum()` over the extended carrier. -/
def sumFP : List FP → FP
  | [] => FP.fin 0
  | x :: xs => FP.add x (sumFP xs)

/-- `simulate_forward_sum_ave` over the extended carrier: the mean
`Λ_vals.sum() / M` with IEEE-style special values. -/
def simulateFP (p : Params) (x0 : ℚ) (g : GlobalRNG) : FP × GlobalRNG :=
  let res := simLoopFP ω EFP p x0 0 p.M g
  (FP.div (sumFP res.1) (FP.fin (p.M : ℚ)), res.2)

/-- Characterization of the inner loop over the extended carrier: entry j of
`A_path` is `β * exp(srcArg j)`. -/
lemma genPathAuxFP_eq (p : Params) (n : ℕ) :
    ∀ (x : ℚ) (m k : ℕ),
      genPathAuxFP ω EFP p n x ⟨m, k⟩
        = ((List.range n).map (fun j => FP.mul (FP.fin p.β) (EFP (srcArg ω p m k x j))),
           ⟨m, k + 3 * n⟩) := by
  induction n with
  | zero => intro x m k; simp [genPathAuxFP]
  | succ n ih =>
    intro x m k
    simp only [genPathAuxFP, randn]
    rw [ih]
    simp only [List.range_succ_eq_map, List.map_cons, List.map_map]
    refine Prod.ext ?_ ?_
    · refine congrArg₂ List.cons ?_ ?_
      · show FP.mul (FP.fin p.β) (EFP (-p.γ * p.μ_c + p.μ_d + (1 - p.γ) * x
            + (-p.γ * p.σ_c * ω m k + p.σ_d * ω m (k + 1))))
          = FP.mul (FP.fin p.β) (EFP (srcArg ω p m k x 0))
        simp [srcArg, xAux]
      · refine List.map_congr_left (fun j _ => ?_)
        exact congrArg (fun a => FP.mul (FP.fin p.β) (EFP a)) (srcArg_shift ω p m k x j)
    · show (⟨m, k + 1 + 1 + 1 + 3 * n⟩ : GlobalRNG) = ⟨m, k + 3 * (n + 1)⟩
      rw [show k + 1 + 1 + 1 + 3 * n = k + 3 * (n + 1) by ring]

/-- One non-finite `A_path` entry poisons the running product and the
forward sum: the path statistic is non-finite whatever the accumulator. -/
lemma forwardSumFP_nonfin (As : List FP) :
    ∀ P : FP, (∃ A ∈ As, A.isFin = false) → (forwardSumFP As P).isFin = false := by
  induction As with
  | nil =>
    intro P h
    rcases h with ⟨A, hA, _⟩
    simp at hA
  | cons B As ih =>
    intro P h
    rcases h with ⟨A, hA, hnf⟩
    rcases List.mem_cons.mp hA with rfl | hmem
    · show (FP.add (FP.mul P A) (forwardSumFP As (FP.mul P A))).isFin = false
      rw [FP.isFin_add, FP.isFin_mul, hnf]
      simp
    · show (FP.add (FP.mul P B) (forwardSumFP As (FP.mul P B))).isFin = false
      rw [FP.isFin_add, ih (FP.mul P B) ⟨A, hmem, hnf⟩]
      simp

/-- One non-finite path statistic poisons the sum of `Λ_vals`. -/
lemma sumFP_nonfin (l : List FP) (A : FP) (hA : A ∈ l) (h : A.isFin = false) :
    (sumFP l).isFin = false := by
  induction l with
  | nil => simp at hA
  | cons B l ih =>
    rcases List.mem_cons.mp hA with rfl | hmem
    · show (FP.add A (sumFP l)).isFin = false
      rw [FP.isFin_add, h]
      simp
    · show (FP.add B (sumFP l)).isFin = false
      rw [FP.isFin_add, ih hmem]
      simp

/-- The value list of the m-loop over the extended carrier. -/
lemma simLoopFP_fst (p : Params) (x0 : ℚ) (k : ℕ) :
    ∀ (m0 : ℕ) (g : GlobalRNG),
      (simLoopFP ω EFP p x0 m0 k g).1
        = (List.range k).map (fun j => pathValueFP ω EFP p x0 (m0 + j)) := by
  induction k with
  | zero => intro m0 g; simp [simLoopFP]
  | succ k ih =>
    intro m0 g
    simp only [simLoopFP]
    rw [ih]
    simp only [List.range_succ_eq_map, List.map_cons, List.map_map]
    refine congrArg₂ List.cons ?_ ?_
    · show pathValueFP ω EFP p x0 m0 = pathValueFP ω EFP p x0 (m0 + 0)
      rw [Nat.add_zero]
    · refine List.map_congr_left (fun j _ => ?_)
      show pathValueFP ω EFP p x0 (m0 + 1 + j) = pathValueFP ω EFP p x0 (m0 + (j + 1))
      rw [show m0 + 1 + j = m0 + (j + 1) by omega]

/-- The value returned by the extended-carrier estimator: the IEEE-style
mean of the path statistics of seeds 0..M-1. -/
lemma simulateFP_fst (p : Params) (x0 : ℚ) (g : GlobalRNG) :
    (simulateFP ω EFP p x0 g).1
      = FP.div (sumFP ((List.range p.M).map (fun m => pathValueFP ω EFP p x0 m)))
          (FP.fin (p.M : ℚ)) := by
  show FP.div (sumFP (simLoopFP ω EFP p x0 0 p.M g).1) (FP.fin (p.M : ℚ)) = _
  rw [simLoopFP_fst]
  simp only [Nat.zero_add]

/-- The default parameters with path length N = 0 and path count M = 2. -/
def zeroHorizonParams : Params :=
  ⟨96/100, 2, 9/10, 1/20, 1/100, 1/100, 1/20, 1/100, 0, 2⟩

/-- The default parameters with all volatilities σ, σ_c, σ_d zero and
N = 3, M = 2. -/
def zeroVolParams : Params := ⟨96/100, 2, 9/10, 0, 1/100, 0, 1/20, 0, 3, 2⟩

/-- The default parameters with N = 1 and M = 1. -/
def tinyParams : Params := ⟨96/100, 2, 9/10, 1/20, 1/100, 1/100, 1/20, 1/100, 1, 1⟩

/-- C1: for every input grid, `compute_prices_across_states` returns a value
list of exactly the grid's length and order, whose entry i is the arithmetic
mean of the M path statistics obtained with initial state `x_grid[i]` and
seeds 0..M-1; the value list does not depend on the incoming
global-generator state, so completion order of the parallel workers cannot
change it. -/
theorem C1_grid_mean (xs : List ℚ) (g g' : GlobalRNG) :
    ((compute_prices_across_states E ω xs g).1).length = xs.length
    ∧ (compute_prices_across_states E ω xs g).1 = (compute_prices_across_states E ω xs g').1
    ∧ ∀ i : ℕ, i < xs.length →
        ((compute_prices_across_states E ω xs g).1).getD i 0
          = ((List.range default_params.M).map
              (fun m => pathValue E ω default_params (xs.getD i 0) m)).sum
            / (default_params.M : ℚ) := by
  refine ⟨compute_length E ω xs g, by rw [compute_fst, compute_fst], ?_⟩
  intro i hi
  rw [compute_fst, getD_map_of_lt _ _ i hi 0 0]
  rfl

/-- Witness for C1 at the one-point grid [0]. -/
theorem C1_grid_mean_witness :
    ((compute_prices_across_states (fun x => x) (fun _ _ => 0) [(0:ℚ)] ⟨0, 0⟩).1).getD 0 0
      = ((List.range default_params.M).map
          (fun m => pathValue (fun x => x) (fun _ _ => 0) default_params
            (([(0:ℚ)]).getD 0 0) m)).sum / (default_params.M : ℚ) :=
  (C1_grid_mean (fun x => x) (fun _ _ => 0) [(0:ℚ)] ⟨0, 0⟩ ⟨0, 0⟩).2.2 0 (by decide)

/-- C2: the path simulator's statistic is Λ = Σ_{n=1}^N Π_{i=1}^n A_i, where
A_t is β·exp(-γ·μ_c + μ_d + (1-γ)·x_{t-1} - γ·σ_c·η_c + σ_d·η_d), computed
from the state carried over from the previous iteration, the state being
updated only afterwards as x_t = ρ·x_{t-1} + σ·ξ: the code's value equals
the spec-side recurrence `spec_Lambda`. -/
theorem C2_path_statistic (p : Params) (x0 : ℚ) (m : ℕ) :
    pathValue E ω p x0 m = spec_Lambda E ω p m x0 := by
  rw [pathValue_eq]
  unfold spec_Lambda
  exact Finset.sum_congr rfl fun n _ =>
    Finset.prod_congr rfl fun i _ => srcA_eq_spec_A E ω p m x0 i

/-- C3 counterexample: with N = 0 (and M = 2) the estimator does not fail
fast — the call returns normally with the degenerate value 0, after running
the M-path loop (the global generator is left reseeded to the last seed 1). -/
theorem C3_counterexample :
    simulate_forward_sum_ave (fun x => x) (fun _ _ => 0) zeroHorizonParams 1 ⟨0, 0⟩
      = (0, ⟨1, 0⟩) := by
  refine Prod.ext ?_ ?_
  · rw [simulate_fst]
    have hv : ∀ m : ℕ,
        pathValue (fun x : ℚ => x) (fun _ _ => (0:ℚ)) zeroHorizonParams 1 m = 0 :=
      fun m => rfl
    simp [hv]
  · exact simLoop_snd (fun x => x) (fun _ _ => 0) zeroHorizonParams 1
      zeroHorizonParams.M 0 ⟨0, 0⟩ (by decide)

/-- C3 amended: no invalid-configuration check exists; with N = 0 the
estimator silently returns the degenerate value 0 (for every M, x0 and
generator state) instead of signalling an error. -/
theorem C3_amended_no_fail_fast (p : Params) (x0 : ℚ) (g : GlobalRNG) (hN : p.N = 0) :
    (simulate_forward_sum_ave E ω p x0 g).1 = 0 := by
  rw [simulate_fst]
  have hv : ∀ m : ℕ, pathValue E ω p x0 m = 0 := by
    intro m
    unfold pathValue
    rw [hN]
    rfl
  simp [hv]

/-- Witness for the amended C3 at N = 0, M = 2. -/
theorem C3_amended_witness :
    (simulate_forward_sum_ave (fun x => x) (fun _ _ => 0) zeroHorizonParams 1 ⟨0, 0⟩).1 = 0 :=
  C3_amended_no_fail_fast (fun x => x) (fun _ _ => 0) zeroHorizonParams 1 ⟨0, 0⟩ rfl

/-- C4: determinism — for a fixed exp model, noise family, parameters,
initial state and path seed, the per-path body returns the same statistic
whatever the pre-call global-generator state is, and so does the M-path
average: repeated invocations give the identical value. -/
theorem C4_determinism (p : Params) (x0 : ℚ) :
    (∀ (m : ℕ) (g g' : GlobalRNG), (pathBody E ω p x0 m g).1 = (pathBody E ω p x0 m g').1)
    ∧ ∀ g g' : GlobalRNG,
        (simulate_forward_sum_ave E ω p x0 g).1 = (simulate_forward_sum_ave E ω p x0 g').1 := by
  refine ⟨fun m g g' => rfl, fun g g' => ?_⟩
  rw [simulate_fst, simulate_fst]

/-- C5: degenerate-shock boundary — with σ = σ_c = σ_d = 0 every path yields
the identical deterministic statistic equal to the closed form
Σ_{n=1}^N Π_{t=1}^n β·exp(-γ·μ_c + μ_d + (1-γ)·x_{t-1}) along the
deterministic state path x_t = ρ·x_{t-1}, and for M ≥ 1 the estimator's
mean over M paths equals that closed form exactly. -/
theorem C5_degenerate_shocks (p : Params) (x0 : ℚ) (g : GlobalRNG)
    (hσ : p.σ = 0) (hσc : p.σ_c = 0) (hσd : p.σ_d = 0) (hM : 1 ≤ p.M) :
    (∀ m : ℕ, pathValue E ω p x0 m = closed_form E p x0)
    ∧ (simulate_forward_sum_ave E ω p x0 g).1 = closed_form E p x0 := by
  have hx : ∀ (m j : ℕ), xAux ω p m 0 x0 j = det_x p x0 j := by
    intro m j
    induction j with
    | zero => rfl
    | succ j ih =>
      show p.ρ * xAux ω p m 0 x0 j + p.σ * ω m (0 + 3 * j + 2) = p.ρ * det_x p x0 j
      rw [ih, hσ]
      ring
  have hA : ∀ (m i : ℕ),
      srcA E ω p m 0 x0 i
        = p.β * E (-p.γ * p.μ_c + p.μ_d + (1 - p.γ) * det_x p x0 i) := by
    intro m i
    unfold srcA
    rw [hx, hσc, hσd]
    ring_nf
  have hpath : ∀ m : ℕ, pathValue E ω p x0 m = closed_form E p x0 := by
    intro m
    rw [pathValue_eq]
    unfold closed_form
    exact Finset.sum_congr rfl fun n _ => Finset.prod_congr rfl fun i _ => hA m i
  refine ⟨hpath, ?_⟩
  rw [simulate_fst]
  have hrepl : (List.range p.M).map (fun m => pathValue E ω p x0 m)
      = List.replicate p.M (closed_form E p x0) := by
    rw [show (fun m => pathValue E ω p x0 m) = fun _ : ℕ => closed_form E p x0 from
      funext hpath]
    rw [List.map_const', List.length_range]
  rw [hrepl, List.sum_replicate, nsmul_eq_mul]
  exact mul_div_cancel_left₀ _ (Nat.cast_ne_zero.mpr (by omega))

/-- Witness for C5 with all volatilities zero, N = 3, M = 2, at path seed 5. -/
theorem C5_degenerate_shocks_witness :
    pathValue (fun x => x) (fun _ _ => 0) zeroVolParams 1 5
        = closed_form (fun x => x) zeroVolParams 1
    ∧ (simulate_forward_sum_ave (fun x => x) (fun _ _ => 0) zeroVolParams 1 ⟨0, 0⟩).1
        = closed_form (fun x => x) zeroVolParams 1 :=
  ⟨(C5_degenerate_shocks (fun x => x) (fun _ _ => 0) zeroVolParams 1 ⟨0, 0⟩
      rfl rfl rfl (by decide)).1 5,
   (C5_degenerate_shocks (fun x => x) (fun _ _ => 0) zeroVolParams 1 ⟨0, 0⟩
      rfl rfl rfl (by decide)).2⟩

/-- C6 counterexample: the estimator call is not free of observable side
effects — it leaves the globally shared generator in a state different from
the pre-call state. -/
theorem C6_counterexample :
    (simulate_forward_sum_ave (fun x => x) (fun _ _ => 0) tinyParams 1 ⟨5, 7⟩).2
      ≠ ⟨5, 7⟩ := by
  decide

/-- C6 amended: the return value depends only on (x0, params, seed family),
but the call does mutate shared state: for M ≥ 1 it leaves the globally
shared generator reseeded to the last path seed M-1, advanced by the 3N
variates of that path, instead of restoring the pre-call state. -/
theorem C6_amended_global_state (p : Params) (x0 : ℚ) (g : GlobalRNG) (hM : 1 ≤ p.M) :
    (simulate_forward_sum_ave E ω p x0 g).2 = ⟨p.M - 1, 3 * p.N⟩ := by
  show (simLoop E ω p x0 0 p.M g).2 = _
  rw [simLoop_snd E ω p x0 p.M 0 g hM]
  rw [show 0 + p.M - 1 = p.M - 1 by omega]

/-- Witness for the amended C6 at N = 1, M = 1. -/
theorem C6_amended_witness :
    (simulate_forward_sum_ave (fun x => x) (fun _ _ => 0) tinyParams 1 ⟨5, 7⟩).2 = ⟨0, 3⟩ :=
  C6_amended_global_state (fun x => x) (fun _ _ => 0) tinyParams 1 ⟨5, 7⟩ (by decide)

/-- C7: the empty grid returns the empty result — not an error — with the
global generator untouched: no path simulation is invoked. -/
theorem C7_empty_grid (g : GlobalRNG) :
    compute_prices_across_states E ω [] g = ([], g) := rfl

/-- C8: numeric overflow within a path is not trapped or masked — if the
exp model returns an infinite or NaN value at iteration t of the path
seeded m (with m < M and t < N), that value propagates through the path's
cumulative product and forward sum, poisoning the path statistic, and the
grid point's mean — the output visible to the caller — is itself infinite
or NaN. -/
theorem C8_overflow_propagates (p : Params) (x0 : ℚ) (g : GlobalRNG) (m t : ℕ)
    (hm : m < p.M) (ht : t < p.N)
    (hnf : (EFP (srcArg ω p m 0 x0 t)).isFin = false) :
    (pathValueFP ω EFP p x0 m).isFin = false
    ∧ ((simulateFP ω EFP p x0 g).1).isFin = false := by
  have hAnf : (FP.mul (FP.fin p.β) (EFP (srcArg ω p m 0 x0 t))).isFin = false := by
    rw [FP.isFin_mul, hnf]
    simp
  have hApath : FP.mul (FP.fin p.β) (EFP (srcArg ω p m 0 x0 t))
      ∈ (genPathAuxFP ω EFP p p.N x0 (npSeed m)).1 := by
    unfold npSeed
    rw [genPathAuxFP_eq]
    exact List.mem_map_of_mem _ (List.mem_range.mpr ht)
  have hpath : (pathValueFP ω EFP p x0 m).isFin = false := by
    unfold pathValueFP pathSumFP
    exact forwardSumFP_nonfin _ _ ⟨_, hApath, hAnf⟩
  refine ⟨hpath, ?_⟩
  rw [simulateFP_fst]
  refine FP.div_nonfin _ _ ?_
  refine sumFP_nonfin _ (pathValueFP ω EFP p x0 m) ?_ hpath
  exact List.mem_map_of_mem _ (List.mem_range.mpr hm)

/-- Witness for C8: an exp model that overflows everywhere, at N = 1, M = 1,
seed 0, iteration 0. -/
theorem C8_overflow_propagates_witness :
    (pathValueFP (fun _ _ => 0) (fun _ => FP.posInf) tinyParams 1 0).isFin = false
    ∧ ((simulateFP (fun _ _ => 0) (fun _ => FP.posInf) tinyParams 1 ⟨0, 0⟩).1).isFin = false :=
  C8_overflow_propagates (fun _ _ => 0) (fun _ => FP.posInf) tinyParams 1 ⟨0, 0⟩ 0 0
    (by decide) (by decide) rfl

/-- C9: the grid driver takes only the state grid — every grid point is
evaluated by `simulate_forward_sum_ave` at the fixed built-in defaults
β=0.96, γ=2, ρ=0.9, σ=0.05, μ_d=0.01, σ_d=0.01, μ_c=0.05, σ_c=0.01,
N=1000, M=20000; the grid-level interface offers no way to vary them. -/
theorem C9_fixed_defaults (xs : List ℚ) (g : GlobalRNG) :
    (compute_prices_across_states E ω xs g).1
      = xs.map (fun x => (simulate_forward_sum_ave E ω default_params x ⟨0, 0⟩).1)
    ∧ default_params.β = 96/100 ∧ default_params.γ = 2 ∧ default_params.ρ = 9/10
    ∧ default_params.σ = 1/20 ∧ default_params.μ_d = 1/100 ∧ default_params.σ_d = 1/100
    ∧ default_params.μ_c = 1/20 ∧ default_params.σ_c = 1/100
    ∧ default_params.N = 1000 ∧ default_params.M = 20000 := by
  refine ⟨?_, rfl, rfl, rfl, rfl, rfl, rfl, rfl, rfl, rfl, rfl⟩
  rw [compute_fst]
  refine List.map_congr_left (fun x _ => ?_)
  exact (simulate_fst E ω default_params x ⟨0, 0⟩).symm

/-- C10: common random numbers — every grid point's batch reuses the same
seed list 0..M-1, so two grid indices holding equal state values receive
exactly equal outputs. -/
theorem C10_common_random_numbers (xs : List ℚ) (g : GlobalRNG) (i j : ℕ)
    (hi : i < xs.length) (hj : j < xs.length) (hx : xs.getD i 0 = xs.getD j 0) :
    ((compute_prices_across_states E ω xs g).1).getD i 0
      = ((compute_prices_across_states E ω xs g).1).getD j 0 := by
  rw [compute_fst, getD_map_of_lt _ _ i hi 0 0, getD_map_of_lt _ _ j hj 0 0, hx]

/-- Witness for C10 at the grid [2, 2]. -/
theorem C10_common_random_numbers_witness :
    ((compute_prices_across_states (fun x => x) (fun _ _ => 0) [(2:ℚ), 2] ⟨0, 0⟩).1).getD 0 0
      = ((compute_prices_across_states (fun x => x) (fun _ _ => 0) [(2:ℚ), 2] ⟨0, 0⟩).1).getD 1 0 :=
  C10_common_random_numbers (fun x => x) (fun _ _ => 0) [(2:ℚ), 2] ⟨0, 0⟩ 0 1
    (by decide) (by decide) rfl

end Model

end AssetPricing
